import Mathlib

/-!
Verification of the scene-description layer/composition substrate (sdf):
the list-editing engine, Path ordering, the Spec Tree / Layer model, the
change manager, the text-format codec contract, and the string utility
`TfIsValidIdentifier`.  The repository ships only the build manifest for
the sdf classes (listOp, path, layer, changeManager, textFileFormat), so
those components are modelled from the specification; `TfIsValidIdentifier`
is embedded directly from `stringUtils.h`.
-/

namespace Sdf

/-- Deduplicate a list, keeping the first occurrence of each item;
`seen` accumulates the items already emitted. -/
def dedupFirstAux {α : Type} [DecidableEq α] (seen : List α) : List α → List α
  | [] => []
  | a :: l => if a ∈ seen then dedupFirstAux seen l else a :: dedupFirstAux (a :: seen) l

/-- Deduplicate a list keeping the first occurrence of each item. -/
def dedupFirst {α : Type} [DecidableEq α] (l : List α) : List α :=
  dedupFirstAux [] l

/-- Deduplicate a list keeping the last occurrence of each item. -/
def dedupLast {α : Type} [DecidableEq α] (l : List α) : List α :=
  (dedupFirst l.reverse).reverse

/-- Modelled from the spec: a List-Edit Operation (sdf `listOp`, whose
implementation is not in the sources) holds the six ordered sub-lists
*explicit*, *added*, *prepended*, *appended*, *deleted*, *ordered* over
items of one element type.  `explicitItems = some _` is an explicit
operation (`isExplicit()`); `none` is a non-explicit one. -/
structure ListOp (α : Type) where
  explicitItems : Option (List α) := none
  addedItems : List α := []
  prependedItems : List α := []
  appendedItems : List α := []
  deletedItems : List α := []
  orderedItems : List α := []
deriving DecidableEq

/-- Thread the reordered mentioned items `ms` through `l`: each position of
`l` holding an item mentioned in `ord` is filled with the next item of `ms`;
unmentioned items pass through unchanged. -/
def threadOrdered {α : Type} [DecidableEq α] (ord : List α) : List α → List α → List α
  | _, [] => []
  | ms, a :: rest =>
    if a ∈ ord then
      match ms with
      | m :: ms2 => m :: threadOrdered ord ms2 rest
      | [] => threadOrdered ord [] rest
    else a :: threadOrdered ord ms rest

/-- Modelled from the spec: place the items enumerated in `ord` in that
relative order; items not mentioned in `ord` keep their positions. -/
def applyOrdered {α : Type} [DecidableEq α] (ord l : List α) : List α :=
  threadOrdered ord (ord.filter (· ∈ l)) l

/-- Modelled from the spec: apply a list-edit operation to a base list
(§3 algorithm).  If *explicit* is present the result is the explicit list
deduplicated; otherwise items in *deleted* are removed from the base,
*prepended* items go to the front, *added* and *appended* items to the back
(items also present in *deleted* are removed — delete wins, §4.2 edge case),
items enumerated in *ordered* are threaded into that relative order, and
finally duplicates are dropped keeping the first occurrence. -/
def ListOp.apply {α : Type} [DecidableEq α] (op : ListOp α) (base : List α) : List α :=
  match op.explicitItems with
  | some es => dedupFirst es
  | none =>
    let del := op.deletedItems
    let kept := base.filter (· ∉ del)
    let pre := op.prependedItems.filter (· ∉ del)
    let add := op.addedItems.filter (· ∉ del)
    let app := op.appendedItems.filter (· ∉ del)
    dedupFirst (applyOrdered op.orderedItems (pre ++ kept ++ add ++ app))

/-- Modelled from the spec: `isExplicit()` for a list-edit operation. -/
def ListOp.isExplicit {α : Type} (op : ListOp α) : Bool :=
  op.explicitItems.isSome

/-- Modelled from the spec: compose a stronger operation over a weaker one
(§4.2).  If the stronger operation is explicit the result is the stronger
operation; otherwise the sub-lists concatenate — prepend(strong)+prepend(weak),
append(weak)+append(strong), deleted = union — with the stronger operation's
items taking precedence on conflicts. -/
def ListOp.composeOverWeaker {α : Type} [DecidableEq α] (s w : ListOp α) : ListOp α :=
  if s.explicitItems.isSome then s
  else
    { explicitItems := w.explicitItems
      addedItems := dedupLast (w.addedItems ++ s.addedItems)
      prependedItems := dedupFirst (s.prependedItems ++ w.prependedItems)
      appendedItems := dedupLast (w.appendedItems ++ s.appendedItems)
      deletedItems := dedupFirst (s.deletedItems ++ w.deletedItems)
      orderedItems := dedupFirst (s.orderedItems ++ w.orderedItems) }

/-- Three-way comparison induced by a linear order. -/
def ordCmp {α : Type} [LinearOrder α] (a b : α) : Ordering :=
  if a < b then .lt else if b < a then .gt else .eq

/-- Lexicographic comparison of lists given an element comparator;
a strict prefix compares less than its extensions. -/
def lexCmp {α : Type} (c : α → α → Ordering) : List α → List α → Ordering
  | [], [] => .eq
  | [], _ :: _ => .lt
  | _ :: _, [] => .gt
  | a :: as, b :: bs => (c a b).then (lexCmp c as bs)

/-- Modelled from the spec: the kinds of typed namespace elements a Path is
made of (root, prim name, property name, relational target, mapper argument,
variant selection). -/
inductive ElemKind
  | root
  | prim
  | prop
  | target
  | mapper
  | variantSel
deriving DecidableEq

/-- Numeric code of an element kind, fixing the kind order used by the
lexicographic Path comparison. -/
def kindCode : ElemKind → Nat
  | .root => 0
  | .prim => 1
  | .prop => 2
  | .target => 3
  | .mapper => 4
  | .variantSel => 5

/-- Modelled from the spec: one typed namespace element of a Path. -/
structure PathElem where
  kind : ElemKind
  name : String
deriving DecidableEq

/-- Compare two path elements: element kind first, then element name. -/
def cmpElem (a b : PathElem) : Ordering :=
  (ordCmp (kindCode a.kind) (kindCode b.kind)).then
    (lexCmp ordCmp a.name.data b.name.data)

/-- Modelled from the spec: a Path is an immutable sequence of typed
namespace elements; absolute paths begin with the root element. -/
structure Path where
  elems : List PathElem
deriving DecidableEq

/-- Total-order comparison of Paths: lexicographic over element kind then
element name, a prefix ordering before its extensions. -/
def cmpPath (p q : Path) : Ordering :=
  lexCmp cmpElem p.elems q.elems

/-- Longest common leading run of equal elements of two element lists. -/
def commonElems : List PathElem → List PathElem → List PathElem
  | a :: as, b :: bs => if a = b then a :: commonElems as bs else []
  | _, _ => []

/-- Modelled from the spec: `getCommonPrefix(other)` — the longest Path that
is a leading prefix of both arguments. -/
def Path.commonPrefixOf (p q : Path) : Path :=
  ⟨commonElems p.elems q.elems⟩

/-- The root namespace element. -/
def absRoot : PathElem := ⟨.root, ""⟩

/-- The path `/A`. -/
def pathA : Path := ⟨[absRoot, ⟨.prim, "A"⟩]⟩

/-- The path `/A/b`. -/
def pathAb : Path := ⟨[absRoot, ⟨.prim, "A"⟩, ⟨.prim, "b"⟩]⟩

/-- The path `/A/c`. -/
def pathAc : Path := ⟨[absRoot, ⟨.prim, "A"⟩, ⟨.prim, "c"⟩]⟩

/-- Modelled from the spec: the kinds of typed Spec nodes of a Spec Tree
(§3): pseudo-root, prim, attribute, relationship, variant set, variant. -/
inductive SpecKind
  | pseudoRoot
  | prim
  | attribute
  | relationship
  | variantSet
  | variant
deriving DecidableEq

/-- Modelled from the spec: a field value is either a plain (stringified)
value or a list-edit operation, stored structurally — the sub-lists are
kept distinct, never eagerly flattened (§4.3). -/
inductive FieldValue
  | str (s : String)
  | listEdit (op : ListOp String)

/-- Modelled from the spec: a Spec Tree node — a typed node with a name,
its fields, and its ordered children (§3). -/
inductive SpecNode
  | node (kind : SpecKind) (name : String)
      (fields : List (String × FieldValue)) (children : List SpecNode)

/-- Modelled from the spec: the parse events of the text format codec.  The
exact token grammar belongs to the external grammar-driven scanner (§4.6,
§6); the codec reads and writes the scanner's parse-event stream, one open
event per spec block (carrying its fields, list-edit sub-lists distinct)
and one close event per block end. -/
inductive Event
  | openSpec (kind : SpecKind) (name : String)
      (fields : List (String × FieldValue))
  | closeSpec

/-- Modelled from the spec: parse errors carried by the codec (§4.6). -/
inductive ParseError
  | unexpectedEnd
  | unmatchedClose
  | trailingTokens
deriving DecidableEq

mutual

/-- Modelled from the spec: `write` — serialize a Spec Tree to the event
stream, one open event (kind, name, fields) then the children in order
then a close event. -/
def writeNode : SpecNode → List Event
  | .node k n fs cs =>
    .openSpec k n fs :: writeKids cs ++ [.closeSpec]

/-- Serialize a list of sibling Spec nodes in order. -/
def writeKids : List SpecNode → List Event
  | [] => []
  | c :: cs => writeNode c ++ writeKids cs

end

/-- A frame of the reader's stack: an open spec block whose children are
still being read (children accumulated in reverse). -/
def Frame : Type :=
  SpecKind × String × List (String × FieldValue) × List SpecNode

/-- Modelled from the spec: the event-stream reader.  An open event pushes
a frame; a close event pops a frame into its parent's children; the tree is
complete when the last frame closes with no events left.  Structurally
invalid input (close without open, trailing events, missing close) is
rejected with a `ParseError`. -/
def runRead : List Event → List Frame → Except ParseError SpecNode
  | [], _ => .error .unexpectedEnd
  | .openSpec k n fs :: rest, stack => runRead rest ((k, n, fs, []) :: stack)
  | .closeSpec :: _, [] => .error .unmatchedClose
  | .closeSpec :: rest, (k, n, fs, cs) :: stack =>
    match stack with
    | [] =>
      if rest.isEmpty then .ok (.node k n fs cs.reverse)
      else .error .trailingTokens
    | (k2, n2, fs2, cs2) :: stack2 =>
      runRead rest ((k2, n2, fs2, .node k n fs cs.reverse :: cs2) :: stack2)

/-- Modelled from the spec: `read` — parse an event stream into a fresh
Spec Tree or fail with a `ParseError`. -/
def readEvents (evts : List Event) : Except ParseError SpecNode :=
  runRead evts []

/-- Modelled from the spec: a Layer owns an identifier and the Spec Tree
rooted at its pseudo-root (§3, §4.4). -/
structure Layer where
  identifier : String
  root : SpecNode

/-- Modelled from the spec: `importFromString` replaces the entire Spec
Tree transactionally — the text is parsed into a fresh tree first and the
new tree is swapped in only if parsing fully succeeds; a parse error
returns the `ParseError` and leaves the Layer's prior content untouched
(§4.4, §4.6). -/
def importFromString (l : Layer) (text : List Event) : Layer × Option ParseError :=
  match readEvents text with
  | .ok t => ({ l with root := t }, none)
  | .error e => (l, some e)

/-- A Layer holding a single prim spec `/Foo` with one field. -/
def fooLayer : Layer :=
  { identifier := "anon"
    root := .node .pseudoRoot "" []
      [.node .prim "Foo" [("specifier", .str "def")] []] }

/-- A syntactically invalid event stream (a close event with no matching
open event). -/
def badText : List Event := [.closeSpec]

/-- Modelled from the spec: one entry of a ChangeList — the changed Path,
whether a Spec was added or removed there, and the set of changed field
names (§4.5). -/
structure ChangeEntry where
  path : Path
  specAdded : Bool
  specRemoved : Bool
  changedFields : List String
deriving DecidableEq

/-- Modelled from the spec: the mutation records the Change Manager
accepts while a change block is open (§4.5). -/
inductive MutOp
  | recordFieldChange (p : Path) (f : String)
  | recordSpecAdded (p : Path)
  | recordSpecRemoved (p : Path)
deriving DecidableEq

/-- The Path a mutation record concerns. -/
def MutOp.path : MutOp → Path
  | .recordFieldChange p _ => p
  | .recordSpecAdded p => p
  | .recordSpecRemoved p => p

/-- Add a field name to a change entry's field set; recording the same
field twice coalesces. -/
def insertField (f : String) (fs : List String) : List String :=
  if f ∈ fs then fs else fs ++ [f]

/-- A fresh (empty) change entry for a Path. -/
def blankEntry (p : Path) : ChangeEntry :=
  { path := p, specAdded := false, specRemoved := false, changedFields := [] }

/-- Merge one mutation record into an existing change entry for its Path. -/
def updEntry (e : ChangeEntry) : MutOp → ChangeEntry
  | .recordFieldChange _ f => { e with changedFields := insertField f e.changedFields }
  | .recordSpecAdded _ => { e with specAdded := true }
  | .recordSpecRemoved _ => { e with specRemoved := true }

/-- Modelled from the spec: record a mutation into the pending-changes
list, coalescing into the existing entry for that Path if present (§4.5). -/
def applyMut : List ChangeEntry → MutOp → List ChangeEntry
  | [], m => [updEntry (blankEntry m.path) m]
  | e :: es, m =>
    if e.path = m.path then updEntry e m :: es else e :: applyMut es m

/-- Boolean Path comparison `p ≤ q` under the total order `cmpPath`. -/
def pathLeb (p q : Path) : Bool :=
  match cmpPath p q with
  | .gt => false
  | _ => true

/-- Change entries ordered by their Path. -/
def entryLE (a b : ChangeEntry) : Prop :=
  pathLeb a.path b.path = true

instance entryLE.decRel : DecidableRel entryLE :=
  fun a b => inferInstanceAs (Decidable (pathLeb a.path b.path = true))

/-- Sort a pending-changes list by Path ascending. -/
def sortChanges (l : List ChangeEntry) : List ChangeEntry :=
  l.insertionSort entryLE

/-- The actions driving the Change Manager: open a change block, close a
change block, or perform a mutation. -/
inductive Action
  | openBlock
  | closeBlock
  | mut (m : MutOp)
deriving DecidableEq

/-- Modelled from the spec: the Change Manager's state — the nesting depth
of open change blocks, the pending coalesced changes of the current batch,
and the log of notifications delivered so far (§4.5). -/
structure CMState where
  depth : Nat
  pending : List ChangeEntry
  notified : List (List ChangeEntry)
deriving DecidableEq

/-- The Change Manager's initial state: no block open, nothing pending. -/
def initCM : CMState := { depth := 0, pending := [], notified := [] }

/-- Modelled from the spec: one step of the Change Manager.  Blocks nest by
depth; mutations accumulate while a block is open; closing the outermost
block delivers exactly one notification with the pending changes ordered
by Path and clears the pending state; a mutation with no open block is its
own single-operation batch (§4.5). -/
def stepCM (st : CMState) : Action → CMState
  | .openBlock => { st with depth := st.depth + 1 }
  | .closeBlock =>
    match st.depth with
    | 0 => st
    | 1 =>
      { depth := 0
        pending := []
        notified := st.notified ++ [sortChanges st.pending] }
    | d + 2 => { st with depth := d + 1 }
  | .mut m =>
    match st.depth with
    | 0 =>
      { st with
        pending := []
        notified := st.notified ++ [sortChanges (applyMut [] m)] }
    | _ + 1 => { st with pending := applyMut st.pending m }

/-- Run the Change Manager over a sequence of actions. -/
def runCM (st : CMState) (as : List Action) : CMState :=
  as.foldl stepCM st

/-- The path `/P` of the worked change-batching example. -/
def pathP : Path := ⟨[absRoot, ⟨.prim, "P"⟩]⟩

/-- The example batch: open a block, create a prim spec at `/P`, set two
fields on it, close the block. -/
def exampleBatch : List Action :=
  [.openBlock, .mut (.recordSpecAdded pathP),
   .mut (.recordFieldChange pathP "f1"),
   .mut (.recordFieldChange pathP "f2"), .closeBlock]

/-- Modelled from the spec: the validation errors of Spec Tree mutation
(§4.3, §7). -/
inductive SpecError
  | duplicateSpec
  | invalidParent
  | specNotFound
  | namespaceEditConflict
deriving DecidableEq

/-- Modelled from the spec: the Path-addressed spec store of one Layer —
which Paths hold a spec, and of which kind (§4.3). -/
structure LayerStore where
  specs : List (Path × SpecKind)
deriving DecidableEq

/-- A fresh layer store holding only the pseudo-root spec. -/
def initStore : LayerStore := ⟨[(⟨[absRoot]⟩, .pseudoRoot)]⟩

/-- The parent Path (drop the last namespace element). -/
def parentOf (p : Path) : Path := ⟨p.elems.dropLast⟩

/-- The kind of the spec at a Path, if one exists. -/
def findSpec (st : LayerStore) (p : Path) : Option SpecKind :=
  (st.specs.find? (fun e => decide (e.1 = p))).map (·.2)

/-- Modelled from the spec: which spec kinds may parent which (§3): prims
under the pseudo-root, prims and variant content; properties under prims,
variants or properties; variants under variant sets. -/
def childKindOk : SpecKind → SpecKind → Bool
  | .pseudoRoot, .prim => true
  | .prim, .prim => true
  | .prim, .attribute => true
  | .prim, .relationship => true
  | .prim, .variantSet => true
  | .variantSet, .variant => true
  | .variant, .prim => true
  | .variant, .attribute => true
  | .variant, .relationship => true
  | .variant, .variantSet => true
  | .attribute, .attribute => true
  | .relationship, .attribute => true
  | _, _ => false

/-- Modelled from the spec: `createSpec(path, kind)` — fails with
`DuplicateSpec` if a spec already exists at the path, with `InvalidParent`
if the parent path has no spec or one of an incompatible kind; a failed
validation leaves the store unchanged (§4.3). -/
def createSpec (st : LayerStore) (p : Path) (k : SpecKind) :
    LayerStore × Option SpecError :=
  if (findSpec st p).isSome then (st, some .duplicateSpec)
  else
    match findSpec st (parentOf p) with
    | none => (st, some .invalidParent)
    | some pk =>
      if childKindOk pk k then (⟨st.specs ++ [(p, k)]⟩, none)
      else (st, some .invalidParent)

/-- The NUL byte. -/
def nulChar : Char := Char.ofNat 0

/-- A character `c` with `'a' <= c <= 'z'`, `'A' <= c <= 'Z'` or `c == '_'`
(the first-character test of `TfIsValidIdentifier`). -/
def isIdentStartChar (c : Char) : Bool :=
  decide (('a' ≤ c ∧ c ≤ 'z') ∨ ('A' ≤ c ∧ c ≤ 'Z') ∨ c = '_')

/-- A letter, digit or underscore (the loop-body test of
`TfIsValidIdentifier`). -/
def isIdentBodyChar (c : Char) : Bool :=
  decide (('a' ≤ c ∧ c ≤ 'z') ∨ ('A' ≤ c ∧ c ≤ 'Z') ∨
    ('0' ≤ c ∧ c ≤ '9') ∨ c = '_')

/-- The loop of `TfIsValidIdentifier` (`for (++p; *p; ++p)`): scan bytes
until the terminating NUL, rejecting any byte that is not a letter, digit
or underscore. -/
def tfIdentRest : List Char → Bool
  | [] => true
  | c :: cs =>
    if c = nulChar then true
    else if isIdentBodyChar c then tfIdentRest cs else false

/-- Embedded from `stringUtils.h` (`TfIsValidIdentifier`): the argument is
the byte content of the `std::string`; `c_str()` iteration stops at the
first NUL byte.  Returns false if the first byte is NUL (or the string is
empty) or not a letter or underscore; then scans the remaining bytes up to
the first NUL, requiring letters, digits and underscores. -/
def TfIsValidIdentifier : List Char → Bool
  | [] => false
  | c :: cs =>
    if c = nulChar then false
    else if isIdentStartChar c then tfIdentRest cs else false

/-- The claim's wording of `TfIsValidIdentifier`, stated for comparison:
the characters before the first NUL byte form a non-empty sequence that
begins with an ASCII letter or underscore and continues with ASCII
letters, digits and underscores only. -/
def validIdentClaim (s : List Char) : Bool :=
  match s.takeWhile (· ≠ nulChar) with
  | [] => false
  | c :: cs => isIdentStartChar c && cs.all isIdentBodyChar

theorem mem_of_mem_dedupFirstAux {α : Type} [DecidableEq α] {x : α} :
    ∀ (seen l : List α), x ∈ dedupFirstAux seen l → x ∈ l := by
  intro seen l
  induction l generalizing seen with
  | nil => intro h; exact absurd h (by simp [dedupFirstAux])
  | cons a l ih =>
    intro h
    by_cases ha : a ∈ seen
    · simp only [dedupFirstAux, if_pos ha] at h
      exact List.mem_cons_of_mem a (ih seen h)
    · simp only [dedupFirstAux, if_neg ha, List.mem_cons] at h
      rcases h with h | h
      · exact h ▸ List.mem_cons_self a l
      · exact List.mem_cons_of_mem a (ih (a :: seen) h)

theorem mem_of_mem_dedupFirst {α : Type} [DecidableEq α] {x : α} {l : List α} :
    x ∈ dedupFirst l → x ∈ l :=
  mem_of_mem_dedupFirstAux [] l

theorem mem_of_mem_threadOrdered {α : Type} [DecidableEq α] {x : α} (ord : List α) :
    ∀ (ms l : List α), x ∈ threadOrdered ord ms l → x ∈ ms ∨ x ∈ l := by
  intro ms l
  induction l generalizing ms with
  | nil => intro h; exact absurd h (by simp [threadOrdered])
  | cons a rest ih =>
    intro h
    by_cases ha : a ∈ ord
    · match ms with
      | m :: ms2 =>
        simp only [threadOrdered, if_pos ha, List.mem_cons] at h
        rcases h with h | h
        · exact Or.inl (h ▸ List.mem_cons_self m ms2)
        · rcases ih ms2 h with h | h
          · exact Or.inl (List.mem_cons_of_mem m h)
          · exact Or.inr (List.mem_cons_of_mem a h)
      | [] =>
        simp only [threadOrdered, if_pos ha] at h
        rcases ih [] h with h | h
        · exact Or.inl h
        · exact Or.inr (List.mem_cons_of_mem a h)
    · simp only [threadOrdered, if_neg ha, List.mem_cons] at h
      rcases h with h | h
      · exact Or.inr (h ▸ List.mem_cons_self a rest)
      · rcases ih ms h with h | h
        · exact Or.inl h
        · exact Or.inr (List.mem_cons_of_mem a h)

theorem mem_of_mem_applyOrdered {α : Type} [DecidableEq α] {x : α} {ord l : List α}
    (h : x ∈ applyOrdered ord l) : x ∈ l := by
  rcases mem_of_mem_threadOrdered ord _ l h with h | h
  · exact of_decide_eq_true (List.mem_filter.mp h).2
  · exact h

theorem applyOrdered_nil_ord {α : Type} [DecidableEq α] (l : List α) :
    applyOrdered ([] : List α) l = l := by
  induction l with
  | nil => rfl
  | cons a rest ih =>
    simp only [applyOrdered, List.filter_nil, threadOrdered] at ih ⊢
    simp [ih]

theorem ordCmp_lt_iff {α : Type} [LinearOrder α] (a b : α) :
    ordCmp a b = .lt ↔ a < b := by
  unfold ordCmp
  split_ifs with h1 h2
  · simp [h1]
  · simp [h1]
  · simp [h1]

theorem ordCmp_gt_iff {α : Type} [LinearOrder α] (a b : α) :
    ordCmp a b = .gt ↔ b < a := by
  unfold ordCmp
  split_ifs with h1 h2
  · simp [lt_asymm h1]
  · simp [h2]
  · simp [h2]

theorem ordCmp_eq_iff {α : Type} [LinearOrder α] (a b : α) :
    ordCmp a b = .eq ↔ a = b := by
  unfold ordCmp
  split_ifs with h1 h2
  · simp [ne_of_lt h1]
  · simp [ne_of_gt h2]
  · simp [le_antisymm (not_lt.mp h2) (not_lt.mp h1)]

theorem ordCmp_swap {α : Type} [LinearOrder α] (a b : α) :
    (ordCmp a b).swap = ordCmp b a := by
  rcases lt_trichotomy a b with h | h | h
  · simp [ordCmp, h, lt_asymm h, Ordering.swap]
  · subst h; simp [ordCmp, lt_irrefl, Ordering.swap]
  · simp [ordCmp, h, lt_asymm h, Ordering.swap]

theorem then_eq_lt (x y : Ordering) :
    x.then y = .lt ↔ (x = .lt ∨ (x = .eq ∧ y = .lt)) := by
  cases x <;> cases y <;> decide

theorem then_eq_eq (x y : Ordering) :
    x.then y = .eq ↔ (x = .eq ∧ y = .eq) := by
  cases x <;> cases y <;> decide

theorem swap_then (x y : Ordering) : (x.then y).swap = x.swap.then y.swap := by
  cases x <;> cases y <;> decide

theorem lexCmp_eq_iff {α : Type} {c : α → α → Ordering}
    (hc : ∀ a b, c a b = .eq ↔ a = b) :
    ∀ as bs, lexCmp c as bs = .eq ↔ as = bs := by
  intro as
  induction as with
  | nil => intro bs; cases bs <;> simp [lexCmp]
  | cons a as ih =>
    intro bs
    cases bs with
    | nil => simp [lexCmp]
    | cons b bs =>
      simp only [lexCmp, then_eq_eq, hc, ih, List.cons.injEq]

theorem lexCmp_swap {α : Type} {c : α → α → Ordering}
    (hc : ∀ a b, (c a b).swap = c b a) :
    ∀ as bs, (lexCmp c as bs).swap = lexCmp c bs as := by
  intro as
  induction as with
  | nil => intro bs; cases bs <;> simp [lexCmp, Ordering.swap]
  | cons a as ih =>
    intro bs
    cases bs with
    | nil => simp [lexCmp, Ordering.swap]
    | cons b bs =>
      simp only [lexCmp]
      rw [← hc a b, ← ih bs]
      cases c a b <;> cases lexCmp c as bs <;> simp [Ordering.then, Ordering.swap]

theorem lexCmp_lt_trans {α : Type} {c : α → α → Ordering}
    (hceq : ∀ a b, c a b = .eq ↔ a = b)
    (hctr : ∀ a b d, c a b = .lt → c b d = .lt → c a d = .lt) :
    ∀ as bs cs, lexCmp c as bs = .lt → lexCmp c bs cs = .lt →
      lexCmp c as cs = .lt := by
  intro as
  induction as with
  | nil =>
    intro bs cs h1 h2
    cases bs with
    | nil => exact absurd h1 (by simp [lexCmp])
    | cons b bs =>
      cases cs with
      | nil => exact absurd h2 (by simp [lexCmp])
      | cons d cs => simp [lexCmp]
  | cons a as ih =>
    intro bs cs h1 h2
    cases bs with
    | nil => exact absurd h1 (by simp [lexCmp])
    | cons b bs =>
      cases cs with
      | nil => exact absurd h2 (by simp [lexCmp])
      | cons d cs =>
        simp only [lexCmp, then_eq_lt] at h1 h2 ⊢
        rcases h1 with h1 | ⟨h1e, h1r⟩
        · rcases h2 with h2 | ⟨h2e, h2r⟩
          · exact Or.inl (hctr a b d h1 h2)
          · exact Or.inl (((hceq b d).mp h2e) ▸ h1)
        · rcases h2 with h2 | ⟨h2e, h2r⟩
          · exact Or.inl (((hceq a b).mp h1e) ▸ h2)
          · exact Or.inr ⟨(hceq a d).mpr (((hceq a b).mp h1e).trans ((hceq b d).mp h2e)),
              ih bs cs h1r h2r⟩

theorem kindCode_inj : ∀ k1 k2 : ElemKind, kindCode k1 = kindCode k2 → k1 = k2 := by
  intro k1 k2
  cases k1 <;> cases k2 <;> intro h <;> first | rfl | exact absurd h (by decide)

theorem cmpElem_eq_iff (a b : PathElem) : cmpElem a b = .eq ↔ a = b := by
  obtain ⟨k1, n1⟩ := a
  obtain ⟨k2, n2⟩ := b
  simp only [cmpElem, then_eq_eq, ordCmp_eq_iff,
    lexCmp_eq_iff (fun a b => ordCmp_eq_iff a b), PathElem.mk.injEq]
  constructor
  · rintro ⟨hk, hn⟩
    exact ⟨kindCode_inj _ _ hk, by apply String.ext; exact hn⟩
  · rintro ⟨hk, hn⟩
    exact ⟨by rw [hk], by rw [hn]⟩

theorem cmpElem_swap (a b : PathElem) : (cmpElem a b).swap = cmpElem b a := by
  simp only [cmpElem, swap_then, ordCmp_swap, lexCmp_swap ordCmp_swap]

theorem cmpElem_lt_trans (a b d : PathElem) :
    cmpElem a b = .lt → cmpElem b d = .lt → cmpElem a d = .lt := by
  simp only [cmpElem, then_eq_lt]
  intro h1 h2
  rcases h1 with h1 | ⟨h1e, h1r⟩
  · rcases h2 with h2 | ⟨h2e, h2r⟩
    · exact Or.inl ((ordCmp_lt_iff _ _).mpr
        (lt_trans ((ordCmp_lt_iff _ _).mp h1) ((ordCmp_lt_iff _ _).mp h2)))
    · exact Or.inl (((ordCmp_eq_iff _ _).mp h2e) ▸ h1)
  · rcases h2 with h2 | ⟨h2e, h2r⟩
    · exact Or.inl (((ordCmp_eq_iff _ _).mp h1e) ▸ h2)
    · refine Or.inr ⟨(ordCmp_eq_iff _ _).mpr
        (((ordCmp_eq_iff _ _).mp h1e).trans ((ordCmp_eq_iff _ _).mp h2e)), ?_⟩
      exact lexCmp_lt_trans (fun a b => ordCmp_eq_iff a b)
        (fun a b d hab hbd => (ordCmp_lt_iff a d).mpr
          (lt_trans ((ordCmp_lt_iff a b).mp hab) ((ordCmp_lt_iff b d).mp hbd)))
        _ _ _ h1r h2r

theorem cmpPath_eq_iff (p q : Path) : cmpPath p q = .eq ↔ p = q := by
  obtain ⟨ps⟩ := p
  obtain ⟨qs⟩ := q
  simp only [cmpPath, lexCmp_eq_iff cmpElem_eq_iff, Path.mk.injEq]

theorem cmpPath_swap (p q : Path) : (cmpPath p q).swap = cmpPath q p :=
  lexCmp_swap cmpElem_swap p.elems q.elems

theorem cmpPath_lt_trans (p q r : Path) :
    cmpPath p q = .lt → cmpPath q r = .lt → cmpPath p r = .lt :=
  lexCmp_lt_trans cmpElem_eq_iff cmpElem_lt_trans p.elems q.elems r.elems

theorem runRead_write_bound :
    ∀ (m : Nat) (T : SpecNode), sizeOf T ≤ m →
      ∀ (rest : List Event) (k : SpecKind) (n : String)
        (fs : List (String × FieldValue)) (cs : List SpecNode) (st : List Frame),
        runRead (writeNode T ++ rest) ((k, n, fs, cs) :: st)
          = runRead rest ((k, n, fs, T :: cs) :: st) := by
  intro m
  induction m with
  | zero =>
    intro T hT
    obtain ⟨Tk, Tn, Tfs, Tcs⟩ := T
    simp at hT
  | succ m ih =>
    intro T hT rest k n fs cs st
    obtain ⟨Tk, Tn, Tfs, Tcs⟩ := T
    have hchild : ∀ c ∈ Tcs, sizeOf c ≤ m := by
      intro c hc
      have h1 : sizeOf c < sizeOf Tcs := List.sizeOf_lt_of_mem hc
      have h2 : sizeOf (SpecNode.node Tk Tn Tfs Tcs)
          = 1 + sizeOf Tk + sizeOf Tn + sizeOf Tfs + sizeOf Tcs := by simp
      omega
    have hkids : ∀ (l : List SpecNode), (∀ c ∈ l, sizeOf c ≤ m) →
        ∀ (acc : List SpecNode) (rest2 : List Event) (stk : List Frame)
          (k2 : SpecKind) (n2 : String) (fs2 : List (String × FieldValue)),
          runRead (writeKids l ++ rest2) ((k2, n2, fs2, acc) :: stk)
            = runRead rest2 ((k2, n2, fs2, l.reverse ++ acc) :: stk) := by
      intro l
      induction l with
      | nil => intro _ acc rest2 stk k2 n2 fs2; simp [writeKids]
      | cons c l ihl =>
        intro hsz acc rest2 stk k2 n2 fs2
        have h1 := ih c (hsz c (List.mem_cons_self c l))
          (writeKids l ++ rest2) k2 n2 fs2 acc stk
        have h2 := ihl (fun c2 hc2 => hsz c2 (List.mem_cons_of_mem c hc2))
          (c :: acc) rest2 stk k2 n2 fs2
        simp only [writeKids, List.append_assoc]
        rw [h1, h2]
        simp
    simp only [writeNode, List.cons_append, List.append_assoc, runRead,
      List.append_eq]
    simp only [List.nil_append]
    rw [hkids Tcs hchild [] (Event.closeSpec :: rest) ((k, n, fs, cs) :: st) Tk Tn Tfs]
    simp [runRead]

theorem runRead_write (T : SpecNode) :
    ∀ (rest : List Event) (k : SpecKind) (n : String)
      (fs : List (String × FieldValue)) (cs : List SpecNode) (st : List Frame),
      runRead (writeNode T ++ rest) ((k, n, fs, cs) :: st)
        = runRead rest ((k, n, fs, T :: cs) :: st) :=
  runRead_write_bound (sizeOf T) T le_rfl

theorem runRead_writeKids :
    ∀ (l acc : List SpecNode) (rest : List Event) (stk : List Frame)
      (k : SpecKind) (n : String) (fs : List (String × FieldValue)),
      runRead (writeKids l ++ rest) ((k, n, fs, acc) :: stk)
        = runRead rest ((k, n, fs, l.reverse ++ acc) :: stk) := by
  intro l
  induction l with
  | nil => intro acc rest stk k n fs; simp [writeKids]
  | cons c l ihl =>
    intro acc rest stk k n fs
    simp only [writeKids, List.append_assoc]
    rw [runRead_write c (writeKids l ++ rest) k n fs acc stk,
      ihl (c :: acc) rest stk k n fs]
    simp

theorem readEvents_write (T : SpecNode) : readEvents (writeNode T) = .ok T := by
  obtain ⟨k, n, fs, cs⟩ := T
  simp only [readEvents, writeNode, List.cons_append, runRead, List.append_eq]
  rw [runRead_writeKids cs [] [Event.closeSpec] [] k n fs]
  simp [runRead]

theorem tfIdentRest_eq_all (cs : List Char) :
    tfIdentRest cs = (cs.takeWhile (· ≠ nulChar)).all isIdentBodyChar := by
  induction cs with
  | nil => rfl
  | cons c cs ih =>
    by_cases h : c = nulChar
    · simp [tfIdentRest, List.takeWhile_cons, h]
    · by_cases hb : isIdentBodyChar c
      · simp [tfIdentRest, List.takeWhile_cons, h, hb, ih]
      · simp [tfIdentRest, List.takeWhile_cons, h, hb]

theorem updEntry_path (e : ChangeEntry) (m : MutOp) :
    (updEntry e m).path = e.path := by
  cases m <;> rfl

theorem insertField_idem (f : String) (fs : List String) :
    insertField f (insertField f fs) = insertField f fs := by
  by_cases h : f ∈ fs
  · simp [insertField, h]
  · simp [insertField, h]

theorem updEntry_idem (e : ChangeEntry) (m : MutOp) :
    updEntry (updEntry e m) m = updEntry e m := by
  cases m with
  | recordFieldChange p f => simp [updEntry, insertField_idem]
  | recordSpecAdded p => rfl
  | recordSpecRemoved p => rfl

theorem applyMut_idem (pend : List ChangeEntry) (m : MutOp) :
    applyMut (applyMut pend m) m = applyMut pend m := by
  induction pend with
  | nil =>
    show applyMut [updEntry (blankEntry m.path) m] m
      = [updEntry (blankEntry m.path) m]
    simp [applyMut, updEntry_path, blankEntry, updEntry_idem]
  | cons e es ih =>
    by_cases h : e.path = m.path
    · simp [applyMut, h, updEntry_path, updEntry_idem]
    · simp [applyMut, h, ih]

theorem runCM_muts (ms : List MutOp) :
    ∀ (pend : List ChangeEntry) (N : List (List ChangeEntry)),
      ∃ pend2, runCM ⟨1, pend, N⟩ (ms.map Action.mut) = ⟨1, pend2, N⟩ := by
  induction ms with
  | nil => intro pend N; exact ⟨pend, rfl⟩
  | cons m ms ih =>
    intro pend N
    have h : runCM ⟨1, pend, N⟩ (Action.mut m :: ms.map Action.mut)
        = runCM ⟨1, applyMut pend m, N⟩ (ms.map Action.mut) := rfl
    rw [List.map_cons, h]
    exact ih (applyMut pend m) N

theorem runCM_append_one (st : CMState) (xs : List Action) (a : Action) :
    runCM st (xs ++ [a]) = stepCM (runCM st xs) a := by
  simp [runCM, List.foldl_append]

theorem runCM_block (ms : List MutOp) :
    ∃ pend2,
      runCM initCM (Action.openBlock :: ms.map Action.mut ++ [Action.closeBlock])
        = ⟨0, [], [sortChanges pend2]⟩ := by
  obtain ⟨p2, hp2⟩ := runCM_muts ms [] []
  refine ⟨p2, ?_⟩
  have h : runCM initCM (Action.openBlock :: ms.map Action.mut ++ [Action.closeBlock])
      = runCM ⟨1, [], []⟩ (ms.map Action.mut ++ [Action.closeBlock]) := rfl
  rw [h, runCM_append_one, hp2]
  rfl

theorem pathLeb_iff (p q : Path) :
    pathLeb p q = true ↔ cmpPath p q = .lt ∨ cmpPath p q = .eq := by
  unfold pathLeb
  cases h : cmpPath p q <;> simp

theorem pathLeb_total (p q : Path) : pathLeb p q = true ∨ pathLeb q p = true := by
  cases h : cmpPath p q with
  | lt => exact Or.inl ((pathLeb_iff p q).mpr (Or.inl h))
  | eq => exact Or.inl ((pathLeb_iff p q).mpr (Or.inr h))
  | gt =>
    have hsw := cmpPath_swap p q
    rw [h] at hsw
    exact Or.inr ((pathLeb_iff q p).mpr (Or.inl hsw.symm))

theorem pathLeb_trans (p q r : Path) (h1 : pathLeb p q = true)
    (h2 : pathLeb q r = true) : pathLeb p r = true := by
  rw [pathLeb_iff] at h1 h2 ⊢
  rcases h1 with h1 | h1
  · rcases h2 with h2 | h2
    · exact Or.inl (cmpPath_lt_trans p q r h1 h2)
    · exact Or.inl (((cmpPath_eq_iff q r).mp h2) ▸ h1)
  · have hpq := (cmpPath_eq_iff p q).mp h1
    rw [hpq]
    exact h2

theorem sortChanges_sorted (l : List ChangeEntry) :
    List.Sorted entryLE (sortChanges l) :=
  @List.sorted_insertionSort ChangeEntry entryLE entryLE.decRel
    ⟨fun a b => pathLeb_total a.path b.path⟩
    ⟨fun _ _ _ h1 h2 => pathLeb_trans _ _ _ h1 h2⟩ l

/-- C1: for every Spec Tree T, reading back the event stream the codec
writes for T reconstructs a tree equal to T in every field and in
structure — children order preserved and list-edit sub-lists kept distinct
(they are part of the structural equality of `FieldValue`). -/
theorem claimC1 : ∀ T : SpecNode, readEvents (writeNode T) = Except.ok T :=
  fun T => readEvents_write T

/-- C2: `apply` is a deterministic function following the full §3
algorithm for every operation — if *explicit* is present the result is the
explicit list deduplicated (order preserved); otherwise it deletes from
the base, prepends at the front, appends at the back (added-style items
filtered by *deleted*), threads items per *ordered*, then drops duplicates
keeping the first occurrence; in particular
apply([a,b,c], {deleted:[b], appended:[d]}) = [a,c,d]. -/
theorem claimC2 :
    (∀ (op : ListOp String) (base : List String) (es : List String),
      op.explicitItems = some es → op.apply base = dedupFirst es)
    ∧ (∀ (op : ListOp String) (base : List String), op.explicitItems = none →
      op.apply base = dedupFirst (applyOrdered op.orderedItems
        (op.prependedItems.filter (· ∉ op.deletedItems)
          ++ base.filter (· ∉ op.deletedItems)
          ++ op.addedItems.filter (· ∉ op.deletedItems)
          ++ op.appendedItems.filter (· ∉ op.deletedItems))))
    ∧ ListOp.apply { deletedItems := ["b"], appendedItems := ["d"] }
        ["a", "b", "c"] = ["a", "c", "d"] := by
  refine ⟨?_, ?_, ?_⟩
  · intro op base es h
    simp [ListOp.apply, h]
  · intro op base h
    simp [ListOp.apply, h]
  · decide

/-- Witness for C2 at a concrete explicit operation and a concrete
non-explicit operation. -/
theorem claimC2_witness :
    (ListOp.apply { explicitItems := some ["p", "q"] } ["z"]
      = dedupFirst ["p", "q"])
    ∧ ListOp.apply { deletedItems := ["b"], appendedItems := ["d"] } ["a", "b", "c"]
      = dedupFirst (applyOrdered
          (({ deletedItems := ["b"], appendedItems := ["d"] } : ListOp String).orderedItems)
          ((({ deletedItems := ["b"], appendedItems := ["d"] } : ListOp String).prependedItems.filter (· ∉ ["b"]))
            ++ (["a", "b", "c"].filter (· ∉ ["b"]))
            ++ (({ deletedItems := ["b"], appendedItems := ["d"] } : ListOp String).addedItems.filter (· ∉ ["b"]))
            ++ (["d"].filter (· ∉ ["b"])))) :=
  ⟨claimC2.1 { explicitItems := some ["p", "q"] } ["z"] ["p", "q"] rfl,
   claimC2.2.1 { deletedItems := ["b"], appendedItems := ["d"] } ["a", "b", "c"] rfl⟩

/-- C3: a non-empty *explicit* sub-list takes precedence — the result is
the explicit list deduplicated, all other sub-lists ignored; in particular
{explicit:[x,y], appended:[z]} applied to any base yields [x,y]. -/
theorem claimC3 :
    (∀ (op : ListOp String) (base : List String) (es : List String),
      op.explicitItems = some es → es ≠ [] → op.apply base = dedupFirst es)
    ∧ (∀ base : List String,
        ListOp.apply { explicitItems := some ["x", "y"], appendedItems := ["z"] }
          base = ["x", "y"]) := by
  constructor
  · intro op base es h _
    simp [ListOp.apply, h]
  · intro base
    rfl

/-- Witness for C3 at a concrete explicit operation. -/
theorem claimC3_witness :
    ListOp.apply { explicitItems := some ["x", "y"], appendedItems := ["z"] }
      ["q"] = dedupFirst ["x", "y"] :=
  claimC3.1 { explicitItems := some ["x", "y"], appendedItems := ["z"] }
    ["q"] ["x", "y"] rfl (by decide)

/-- C4: `importFromString` is atomic — when parsing fails, the operation
returns the `ParseError` and the Layer's entire prior Spec Tree is
unchanged; in particular a Layer holding prim /Foo still holds /Foo
unchanged after importing syntactically invalid text. -/
theorem claimC4 :
    (∀ (l : Layer) (text : List Event) (e : ParseError),
      readEvents text = .error e → importFromString l text = (l, some e))
    ∧ importFromString fooLayer badText
        = (fooLayer, some ParseError.unmatchedClose) := by
  constructor
  · intro l text e h
    simp [importFromString, h]
  · rfl

/-- Witness for C4 at a concrete Layer and invalid text. -/
theorem claimC4_witness :
    importFromString fooLayer [Event.closeSpec, Event.closeSpec]
      = (fooLayer, some ParseError.unmatchedClose) :=
  claimC4.1 fooLayer [Event.closeSpec, Event.closeSpec]
    ParseError.unmatchedClose rfl

/-- C5: any sequence of mutations inside one change block triggers exactly
one notification when the block closes, the delivered ChangeList is
ordered by Path ascending, recording the same change twice coalesces, and
the worked example (open, create prim spec at /P, set two fields, close)
delivers one notification with one entry listing both fields. -/
theorem claimC5 :
    (∀ ms : List MutOp,
      (runCM initCM (Action.openBlock :: ms.map Action.mut
        ++ [Action.closeBlock])).notified.length = 1)
    ∧ (∀ ms : List MutOp,
        ∀ cl ∈ (runCM initCM (Action.openBlock :: ms.map Action.mut
          ++ [Action.closeBlock])).notified, List.Sorted entryLE cl)
    ∧ (∀ (pend : List ChangeEntry) (m : MutOp),
        applyMut (applyMut pend m) m = applyMut pend m)
    ∧ (runCM initCM exampleBatch).notified
        = [[{ path := pathP, specAdded := true, specRemoved := false,
              changedFields := ["f1", "f2"] }]] := by
  refine ⟨?_, ?_, applyMut_idem, ?_⟩
  · intro ms
    obtain ⟨p2, h⟩ := runCM_block ms
    rw [h]
    rfl
  · intro ms cl hcl
    obtain ⟨p2, h⟩ := runCM_block ms
    rw [h] at hcl
    simp only [List.mem_singleton] at hcl
    rw [hcl]
    exact sortChanges_sorted p2
  · decide

/-- Witness for C5: the ChangeList delivered for the worked example is
sorted by Path. -/
theorem claimC5_witness :
    List.Sorted entryLE
      [{ path := pathP, specAdded := true, specRemoved := false,
         changedFields := ["f1", "f2"] }] :=
  claimC5.2.1
    [.recordSpecAdded pathP, .recordFieldChange pathP "f1",
     .recordFieldChange pathP "f2"]
    [{ path := pathP, specAdded := true, specRemoved := false,
       changedFields := ["f1", "f2"] }]
    (by decide)

/-- C6: composing a stronger operation over a weaker one yields the
stronger operation when it is explicit; otherwise prepend =
prepend(S)+prepend(W), append = append(W)+append(S) and deleted = the
union, the stronger operation's items winning conflicts; in particular
applying composeOverWeaker({appended:[y]}, {appended:[x]}) to [] yields
[x, y]. -/
theorem claimC6 :
    (∀ s w : ListOp String, s.explicitItems.isSome = true →
      s.composeOverWeaker w = s)
    ∧ (∀ s w : ListOp String, s.explicitItems = none →
        (s.composeOverWeaker w).prependedItems
            = dedupFirst (s.prependedItems ++ w.prependedItems)
          ∧ (s.composeOverWeaker w).appendedItems
            = dedupLast (w.appendedItems ++ s.appendedItems)
          ∧ (s.composeOverWeaker w).deletedItems
            = dedupFirst (s.deletedItems ++ w.deletedItems))
    ∧ ListOp.apply
        (ListOp.composeOverWeaker { appendedItems := ["y"] }
          { appendedItems := ["x"] }) [] = ["x", "y"] := by
  refine ⟨?_, ?_, ?_⟩
  · intro s w h
    simp [ListOp.composeOverWeaker, h]
  · intro s w h
    refine ⟨?_, ?_, ?_⟩ <;> simp [ListOp.composeOverWeaker, h]
  · decide

/-- Witness for C6 at concrete operations. -/
theorem claimC6_witness :
    (ListOp.composeOverWeaker { explicitItems := some ["e"] }
        { appendedItems := ["x"] } : ListOp String)
      = { explicitItems := some ["e"] } :=
  claimC6.1 { explicitItems := some ["e"] } { appendedItems := ["x"] } rfl

/-- C7: for a non-explicit operation, an item appearing both in an
added-style sub-list (added, prepended or appended) and in *deleted* is
absent from the result of `apply` — delete wins. -/
theorem claimC7 :
    ∀ (op : ListOp String) (base : List String) (x : String),
      op.explicitItems = none → x ∈ op.deletedItems →
      (x ∈ op.addedItems ∨ x ∈ op.prependedItems ∨ x ∈ op.appendedItems) →
      x ∉ op.apply base := by
  intro op base x hex hdel _ hmem
  simp only [ListOp.apply, hex] at hmem
  have h1 := mem_of_mem_dedupFirst hmem
  have h2 := mem_of_mem_applyOrdered h1
  simp only [List.mem_append] at h2
  rcases h2 with ((h | h) | h) | h <;>
    exact (of_decide_eq_true (List.mem_filter.mp h).2) hdel

/-- Witness for C7: an item both appended and deleted is absent. -/
theorem claimC7_witness :
    "z" ∉ ListOp.apply
      { appendedItems := ["z"], deletedItems := ["z"] } ["a"] :=
  claimC7 { appendedItems := ["z"], deletedItems := ["z"] } ["a"] "z"
    rfl (by decide) (Or.inr (Or.inr (by decide)))

/-- C8: `cmpPath` is a total order — lexicographic over element kind then
element name — with equality exactly structural equality of the element
sequences; for P1 = /A/b, P2 = /A/c, P3 = /A the order is P3 < P1 < P2 and
the common prefix of P1 and P2 is /A. -/
theorem claimC8 :
    (∀ p q : Path, cmpPath p q = .eq ↔ p = q)
    ∧ (∀ p q : Path, (cmpPath p q).swap = cmpPath q p)
    ∧ (∀ p q r : Path, cmpPath p q = .lt → cmpPath q r = .lt →
        cmpPath p r = .lt)
    ∧ (∀ p q : Path, p = q ↔ p.elems = q.elems)
    ∧ (cmpPath pathA pathAb = .lt ∧ cmpPath pathAb pathAc = .lt
        ∧ Path.commonPrefixOf pathAb pathAc = pathA) := by
  refine ⟨cmpPath_eq_iff, cmpPath_swap, cmpPath_lt_trans, ?_, ?_, ?_, ?_⟩
  · intro p q
    obtain ⟨ps⟩ := p
    obtain ⟨qs⟩ := q
    simp
  · decide
  · decide
  · decide

/-- Witness for C8: transitivity applied at the example paths gives
/A < /A/c. -/
theorem claimC8_witness : cmpPath pathA pathAc = .lt :=
  claimC8.2.2.1 pathA pathAb pathAc (by decide) (by decide)

/-- C9: `createSpec` fails with `DuplicateSpec` and leaves the store
unchanged when a spec already exists at the path; creating /A twice
succeeds once, fails the second time with `DuplicateSpec`, and the store
holds exactly one spec at /A. -/
theorem claimC9 :
    (∀ (st : LayerStore) (p : Path) (k : SpecKind),
      (findSpec st p).isSome = true →
        createSpec st p k = (st, some SpecError.duplicateSpec))
    ∧ ((createSpec initStore pathA SpecKind.prim).2 = none
        ∧ createSpec (createSpec initStore pathA SpecKind.prim).1 pathA
            SpecKind.prim
          = ((createSpec initStore pathA SpecKind.prim).1,
             some SpecError.duplicateSpec)
        ∧ ((createSpec initStore pathA SpecKind.prim).1.specs.filter
            (fun e => decide (e.1 = pathA))).length = 1) := by
  constructor
  · intro st p k h
    simp [createSpec, h]
  · refine ⟨?_, ?_, ?_⟩ <;> decide

/-- Witness for C9: a second creation at /A (of any kind) fails with
`DuplicateSpec` and returns the store unchanged. -/
theorem claimC9_witness :
    createSpec (createSpec initStore pathA SpecKind.prim).1 pathA
        SpecKind.variantSet
      = ((createSpec initStore pathA SpecKind.prim).1,
         some SpecError.duplicateSpec) :=
  claimC9.1 (createSpec initStore pathA SpecKind.prim).1 pathA
    SpecKind.variantSet (by decide)

/-- C10: `TfIsValidIdentifier(s)` is true iff the characters of s before
its first NUL byte form a non-empty sequence starting with an ASCII letter
or underscore and continuing with ASCII letters, digits and underscores;
it is false on the empty string, and bytes after an embedded NUL are never
inspected. -/
theorem claimC10 :
    (∀ s : List Char, TfIsValidIdentifier s = validIdentClaim s)
    ∧ TfIsValidIdentifier [] = false := by
  refine ⟨?_, rfl⟩
  intro s
  cases s with
  | nil => rfl
  | cons c cs =>
    by_cases h : c = nulChar
    · simp [TfIsValidIdentifier, validIdentClaim, List.takeWhile_cons, h]
    · by_cases hs : isIdentStartChar c
      · simp [TfIsValidIdentifier, validIdentClaim, List.takeWhile_cons, h,
          hs, tfIdentRest_eq_all]
      · simp [TfIsValidIdentifier, validIdentClaim, List.takeWhile_cons, h, hs]

end Sdf
